import Mathlib

/-!
Verification of the spell-checker core in `src/Backend/spellcheckfunc.c`.

The C program is shallowly embedded: C strings become `List Char` (the
characters before the terminating NUL), C `int` values become `Int`
(or `Nat` where the source guarantees non-negativity), and the global
dictionary becomes an `Option (List (List Char))` (`none` models the
`dictionary == NULL` state). Allocation failure of the distance table is
modelled by parameterizing the suggestion scan over the distance function
it calls: a run where some calls fail corresponds to a `distFn` returning
a negative sentinel for those candidates, mirroring the `-1` return of
`damerau_levenshtein_distance`.
-/

namespace SpellCheck

/-- `#define MAX_WORD_LEN 50` in spellcheckfunc.c. -/
def MAX_WORD_LEN : Nat := 50

/-- `#define MAX_TEMP_SUGGESTIONS 1000` in spellcheckfunc.c. -/
def MAX_TEMP_SUGGESTIONS : Nat := 1000

/-- Padding character used as the (never-read) default for in-range
`List.getD` accesses when embedding C array indexing. -/
def padC : Char := ' '

/-- C `tolower` on ASCII input (the program folds bytes with
`tolower((unsigned char)c)`; for ASCII this maps A-Z to a-z and leaves
everything else unchanged). -/
def tolowerC (c : Char) : Char :=
  if 'A' ≤ c ∧ c ≤ 'Z' then Char.ofNat (c.toNat + 32) else c

/-- C `strcmp` restricted to the sign information the program uses
(the source only tests `strcmp(...) == 0` and `strcmp(...) < 0`);
characters compare as unsigned byte values. -/
def strcmp : List Char → List Char → Int
  | [], [] => 0
  | [], _ :: _ => -1
  | _ :: _, [] => 1
  | a :: s, b :: t =>
    if a.toNat < b.toNat then -1
    else if b.toNat < a.toNat then 1
    else strcmp s t

/-- One cell of the `dp` table in `damerau_levenshtein_distance`
(spellcheckfunc.c lines 75-89): `rows` holds the already-filled rows
`dp[0..i-1]`, `cur` the already-filled prefix `dp[i][0..j-1]`, and
`(i, j)` are the coordinates of the cell being computed (`i ≥ 1`,
`j ≥ 1`). -/
def dlCell (a b : List Char) (rows : List (List Nat)) (cur : List Nat) (i j : Nat) : Nat :=
  let cost : Nat := if a.getD (i-1) padC = b.getD (j-1) padC then 0 else 1
  let base : Nat :=
    min ((rows.getD (i-1) []).getD j 0 + 1)
      (min (cur.getD (j-1) 0 + 1) ((rows.getD (i-1) []).getD (j-1) 0 + cost))
  if 1 < i ∧ 1 < j ∧ a.getD (i-1) padC = b.getD (j-2) padC ∧ a.getD (i-2) padC = b.getD (j-1) padC
  then min base ((rows.getD (i-2) []).getD (j-2) 0 + 1)
  else base

/-- Row `i ≥ 1` of the `dp` table filled left to right up to column `j`
(the inner `for (j = 1; ...)` loop, with `dp[i][0] = i` from the
initialization loop at line 68). -/
def mkRowAux (a b : List Char) (rows : List (List Nat)) (i : Nat) : Nat → List Nat
  | 0 => [i]
  | j+1 => mkRowAux a b rows i j ++ [dlCell a b rows (mkRowAux a b rows i j) i (j+1)]

/-- The `dp` table of `damerau_levenshtein_distance` after the rows
`0..n` have been filled (row 0 is `dp[0][j] = j` from line 71). -/
def dlRows (a b : List Char) : Nat → List (List Nat)
  | 0 => [List.range (b.length + 1)]
  | n+1 => dlRows a b n ++ [mkRowAux a b (dlRows a b n) (n+1) b.length]

/-- `damerau_levenshtein_distance` (spellcheckfunc.c lines 41-101) on its
success path: the early returns for an empty argument, then the filled
table's entry `dp[len1][len2]`. The `-1` allocation-failure return is
modelled at the call sites (`collect`) by an arbitrary distance
function. -/
def damerau_levenshtein_distance (a b : List Char) : Nat :=
  if a.length = 0 then b.length
  else if b.length = 0 then a.length
  else ((dlRows a b a.length).getD a.length []).getD b.length 0

/-- The restricted Damerau-Levenshtein (optimal string alignment)
recurrence exactly as stated in the specification: `dp[i][0] = i`,
`dp[0][j] = j`, `dp[i][j] = min(del, ins, sub)` with the extra
transposition option when `i > 1`, `j > 1`, `a[i-1] = b[j-2]` and
`a[i-2] = b[j-1]`. This is the spec-side definition the table-filling
code is compared against. -/
def osaSpec (a b : List Char) : Nat → Nat → Nat
  | 0, j => j
  | i+1, 0 => i + 1
  | i+1, j+1 =>
    let cost : Nat := if a.getD i padC = b.getD j padC then 0 else 1
    let base : Nat :=
      min (osaSpec a b i (j+1) + 1)
        (min (osaSpec a b (i+1) j + 1) (osaSpec a b i j + cost))
    if 0 < i ∧ 0 < j ∧ a.getD i padC = b.getD (j-1) padC ∧ a.getD (i-1) padC = b.getD j padC
    then min base (osaSpec a b (i-1) (j-1) + 1)
    else base
termination_by i j => (i, j)

/-- A `Suggestion` record (spellcheckfunc.c lines 20-23): the candidate
word and its edit distance (`int dist`, so `Int` — the program can in
principle store any `int` here). -/
structure Suggestion where
  word : List Char
  dist : Int
deriving DecidableEq

/-- Default `Suggestion` used for in-range `List.getD` array accesses. -/
def dS : Suggestion := ⟨[], 0⟩

/-- The comparison in `sort_suggestions` (lines 263-264): entry `x`
must move before entry `y` when `x.dist < y.dist`, or the distances tie
and `strcmp(x.word, y.word) < 0`. -/
def lessb (x y : Suggestion) : Bool :=
  decide (x.dist < y.dist) || (decide (x.dist = y.dist) && decide (strcmp x.word y.word < 0))

/-- The three-assignment swap of `suggestions[i]` and `suggestions[j]`
(lines 265-267). -/
def swapL (s : List Suggestion) (i j : Nat) : List Suggestion :=
  (s.set i (s.getD j dS)).set j (s.getD i dS)

/-- The inner `for (j = i + 1; j < count; j++)` loop of
`sort_suggestions`; `fuel` bounds the remaining iterations (callers pass
`s.length`, which is always enough since `j` only increases). -/
def innerLoop (i : Nat) : Nat → Nat → List Suggestion → List Suggestion
  | 0, _, s => s
  | fuel+1, j, s =>
    if j < s.length then
      innerLoop i fuel (j+1) (if lessb (s.getD j dS) (s.getD i dS) then swapL s i j else s)
    else s

/-- The outer `for (i = 0; i < count - 1; i++)` loop of
`sort_suggestions` (with C `int` arithmetic, `i < count - 1` is
`i + 1 < count`). -/
def outerLoop : Nat → Nat → List Suggestion → List Suggestion
  | 0, _, s => s
  | fuel+1, i, s =>
    if i + 1 < s.length then outerLoop fuel (i+1) (innerLoop i s.length (i+1) s) else s

/-- `sort_suggestions` (spellcheckfunc.c lines 260-271): the
exchange sort over the `count`-element buffer, here the whole list. -/
def sort_suggestions (s : List Suggestion) : List Suggestion :=
  outerLoop s.length 0 s

/-- The candidate-collecting loop of `get_suggestions` (lines 217-250):
`lw` is the lowercased query, `cnt` the current `suggestion_count`.
`distFn` stands for the call to `damerau_levenshtein_distance`, so that
runs where some calls fail allocation (returning a negative sentinel)
are instances of the same definition. -/
def collect (distFn : List Char → List Char → Int) (lw : List Char)
    (tol mlen ltol : Int) : List (List Char) → Nat → List Suggestion
  | [], _ => []
  | w :: rest, cnt =>
    if (w.length : Int) < mlen then
      collect distFn lw tol mlen ltol rest cnt
    else if ltol < |(w.length : Int) - mlen| then
      collect distFn lw tol mlen ltol rest cnt
    else if 0 ≤ distFn lw w ∧ distFn lw w ≤ tol then
      if cnt < MAX_TEMP_SUGGESTIONS then
        ⟨w.take (MAX_WORD_LEN - 1), distFn lw w⟩ :: collect distFn lw tol mlen ltol rest (cnt + 1)
      else []
    else
      collect distFn lw tol mlen ltol rest cnt

/-- The acceptance test a dictionary word must pass in one iteration of
the `get_suggestions` loop: both length filters and the distance check. -/
def qualifies (distFn : List Char → List Char → Int) (lw : List Char)
    (tol mlen ltol : Int) (w : List Char) : Bool :=
  decide (¬ (w.length : Int) < mlen) &&
    (decide (¬ ltol < |(w.length : Int) - mlen|) &&
      decide (0 ≤ distFn lw w ∧ distFn lw w ≤ tol))

/-- `get_suggestions` (spellcheckfunc.c lines 200-257): the
`dictionary == NULL || dictionary_count == 0` guard, the
truncate-then-lowercase normalization of the query (`strncpy` to
`MAX_WORD_LEN - 1` characters, then `tolower`), the collecting scan and
the final `sort_suggestions` call. The returned list is the filled
prefix of the caller's buffer together with the returned count. -/
def get_suggestions (distFn : List Char → List Char → Int)
    (store : Option (List (List Char))) (word : List Char)
    (tol mlen ltol : Int) : List Suggestion :=
  match store with
  | none => []
  | some dict =>
    if dict.length = 0 then []
    else
      sort_suggestions
        (collect distFn ((word.take (MAX_WORD_LEN - 1)).map tolowerC) tol mlen ltol dict 0)

/-- The distance function of a run where every table allocation
succeeds: the non-negative value of `damerau_levenshtein_distance`. -/
def dlDistFn (a b : List Char) : Int := (damerau_levenshtein_distance a b : Int)

/-- The linear scan of `is_word_correct` (lines 185-191): `strcmp`
against each stored word, first match wins. -/
def scanWords (lw : List Char) : List (List Char) → Bool
  | [] => false
  | w :: rest => if strcmp lw w = 0 then true else scanWords lw rest

/-- `is_word_correct` (spellcheckfunc.c lines 170-195): the
empty-store guard, the truncate-then-lowercase normalization of the
query, and the linear `strcmp` scan. -/
def is_word_correct (store : Option (List (List Char))) (word : List Char) : Bool :=
  match store with
  | none => false
  | some dict =>
    if dict.length = 0 then false
    else scanWords ((word.take (MAX_WORD_LEN - 1)).map tolowerC) dict

/-- Per-line normalization in `load_dictionary` (lines 127-131):
`line[strcspn(line, "\n\r")] = 0` cuts the line at the first newline or
carriage return, then each remaining character is lowercased. -/
def normalizeLine (l : List Char) : List Char :=
  (l.takeWhile (fun c => ¬ (c = '\n' ∨ c = '\r'))).map tolowerC

/-- The reading loop of `load_dictionary` (lines 125-160): each line is
normalized; lines whose normalized length is `< MAX_WORD_LEN` are
stored (`strncpy` of at most `MAX_WORD_LEN - 1` characters), the rest
are skipped. -/
def processLines (lines : List (List Char)) : List (List Char) :=
  lines.filterMap (fun l =>
    if (normalizeLine l).length < MAX_WORD_LEN then
      some ((normalizeLine l).take (MAX_WORD_LEN - 1))
    else none)

/-- `load_dictionary` (spellcheckfunc.c lines 105-166). `ok` models the
environment: `true` when `fopen` and every allocation succeed, `false`
when any of them fails. On failure every path leaves
`dictionary = NULL` (the initial `cleanup()` plus the explicit frees)
and returns 0; on success the store holds the processed lines and the
function returns 1. `lines` is the sequence of `fgets` results without
the terminating NUL. -/
def load_dictionary (ok : Bool) (lines : List (List Char)) :
    Option (List (List Char)) × Bool :=
  if ok then (some (processLines lines), true) else (none, false)

/-- Modelled from the spec: the spec's query normalization
"trim trailing newline/carriage-return, fold to ASCII lowercase"
(§4.2 `contains`), which claim C5 attributes to `is_word_correct`. The
C query path has no trimming step, so this definition follows the
spec's words for comparison with the code. -/
def normalizeQuerySpec (w : List Char) : List Char :=
  (w.takeWhile (fun c => ¬ (c = '\n' ∨ c = '\r'))).map tolowerC

/-! ### Generic list lemmas used by the loop proofs -/

theorem getD_set_self {α : Type} (l : List α) (i : Nat) (x d : α) (h : i < l.length) :
    (l.set i x).getD i d = x := by
  rw [List.getD_eq_getElem?_getD, List.getElem?_set_self h]
  rfl

theorem getD_set_ne {α : Type} (l : List α) {i j : Nat} (x d : α) (h : i ≠ j) :
    (l.set i x).getD j d = l.getD j d := by
  rw [List.getD_eq_getElem?_getD, List.getElem?_set_ne h, ← List.getD_eq_getElem?_getD]

theorem take_set_of_le {α : Type} (l : List α) {i j : Nat} (x : α) (h : i ≤ j) :
    (l.set j x).take i = l.take i := by
  apply List.ext_getElem?
  intro n
  simp only [List.getElem?_take]
  by_cases hn : n < i
  · rw [if_pos hn, if_pos hn, List.getElem?_set_ne (by omega)]
  · rw [if_neg hn, if_neg hn]

theorem take_succ_getD {α : Type} (l : List α) {i : Nat} (d : α) (h : i < l.length) :
    l.take (i + 1) = l.take i ++ [l.getD i d] := by
  rw [List.take_succ, List.getElem?_eq_getElem h, List.getD_eq_getElem l d h]
  rfl

theorem drop_eq_getD_cons {α : Type} (l : List α) {i : Nat} (d : α) (h : i < l.length) :
    l.drop i = l.getD i d :: l.drop (i + 1) := by
  rw [List.drop_eq_getElem_cons h, List.getD_eq_getElem l d h]

theorem getD_mem_drop {α : Type} (l : List α) {i : Nat} (d : α) (h : i < l.length) :
    l.getD i d ∈ l.drop i := by
  rw [drop_eq_getD_cons l d h]
  exact List.mem_cons_self _ _

theorem mem_drop_getD {α : Type} {y : α} {l : List α} {i : Nat} (d : α) (hy : y ∈ l.drop i) :
    ∃ k, i ≤ k ∧ k < l.length ∧ l.getD k d = y := by
  obtain ⟨n, hn, he⟩ := List.mem_iff_getElem.1 hy
  have hlen : n < l.length - i := by simpa using hn
  refine ⟨i + n, Nat.le_add_right _ _, by omega, ?_⟩
  have : (l.drop i)[n]? = l[i + n]? := List.getElem?_drop l i n
  rw [List.getD_eq_getElem?_getD, ← this, List.getElem?_eq_getElem hn, ← he]
  rfl

theorem drop_perm_of_take_eq {α : Type} {l1 l2 : List α} (i : Nat)
    (hp : l1.Perm l2) (ht : l1.take i = l2.take i) :
    (l1.drop i).Perm (l2.drop i) := by
  have h1 := List.take_append_drop i l1
  have h2 := List.take_append_drop i l2
  apply (List.perm_append_left_iff (l1.take i)).1
  rw [h1, ht, h2]
  exact hp

theorem getD_cons_set_perm {α : Type} (l : List α) (k : Nat) (x d : α) (h : k < l.length) :
    (l.getD k d :: l.set k x).Perm (x :: l) := by
  induction l generalizing k with
  | nil => simp at h
  | cons b t ih =>
    cases k with
    | zero =>
      simp only [List.getD_cons_zero, List.set_cons_zero]
      exact List.Perm.swap x b t
    | succ m =>
      simp only [List.getD_cons_succ, List.set_cons_succ]
      have hm : m < t.length := by simpa using h
      have h1 : (t.getD m d :: b :: t.set m x).Perm (b :: t.getD m d :: t.set m x) :=
        List.Perm.swap b (t.getD m d) (t.set m x)
      have h2 : (b :: t.getD m d :: t.set m x).Perm (b :: x :: t) :=
        (ih m hm).cons b
      have h3 : (b :: x :: t).Perm (x :: b :: t) := List.Perm.swap x b t
      exact (h1.trans h2).trans h3

theorem set_set_perm {α : Type} (l : List α) {i j : Nat} (d : α) (hij : i < j)
    (hj : j < l.length) :
    ((l.set i (l.getD j d)).set j (l.getD i d)).Perm l := by
  induction l generalizing i j with
  | nil => simp at hj
  | cons b t ih =>
    cases i with
    | zero =>
      cases j with
      | zero => omega
      | succ m =>
        simp only [List.getD_cons_succ, List.getD_cons_zero, List.set_cons_zero,
          List.set_cons_succ]
        exact getD_cons_set_perm t m b d (by simpa using hj)
    | succ n =>
      cases j with
      | zero => omega
      | succ m =>
        simp only [List.getD_cons_succ, List.set_cons_succ]
        exact (ih (by omega) (by simpa using hj)).cons b

/-! ### Properties of `strcmp` and of the sort comparison -/

theorem charToNat_inj {x y : Char} (h : x.toNat = y.toNat) : x = y :=
  Char.ext (UInt32.ext h)

theorem strcmp_eq_zero_iff : ∀ (a b : List Char), strcmp a b = 0 ↔ a = b := by
  intro a
  induction a with
  | nil => intro b; cases b <;> simp [strcmp]
  | cons x s ih =>
    intro b
    cases b with
    | nil => simp [strcmp]
    | cons y t =>
      simp only [strcmp]
      rcases Nat.lt_trichotomy x.toNat y.toNat with h | h | h
      · rw [if_pos h]
        constructor
        · intro hc
          exact absurd hc (by decide)
        · intro hc
          injection hc with h1 h2
          subst h1
          omega
      · rw [if_neg (by omega), if_neg (by omega)]
        have hxy : x = y := charToNat_inj h
        subst hxy
        rw [ih t]
        constructor
        · intro hc; rw [hc]
        · intro hc; injection hc
      · rw [if_neg (by omega), if_pos h]
        constructor
        · intro hc
          exact absurd hc (by decide)
        · intro hc
          injection hc with h1 h2
          subst h1
          omega

theorem strcmp_swap : ∀ (a b : List Char), strcmp b a = - strcmp a b := by
  intro a
  induction a with
  | nil => intro b; cases b <;> simp [strcmp]
  | cons x s ih =>
    intro b
    cases b with
    | nil => simp [strcmp]
    | cons y t =>
      simp only [strcmp]
      rcases Nat.lt_trichotomy x.toNat y.toNat with h | h | h
      · simp only [if_pos h, if_neg (show ¬ y.toNat < x.toNat by omega)]
        try decide
      · simp only [if_neg (show ¬ y.toNat < x.toNat by omega),
          if_neg (show ¬ x.toNat < y.toNat by omega)]
        exact ih t
      · simp only [if_pos h, if_neg (show ¬ x.toNat < y.toNat by omega)]
        try decide

theorem strcmp_lt_trans : ∀ (a b c : List Char),
    strcmp a b < 0 → strcmp b c < 0 → strcmp a c < 0 := by
  intro a
  induction a with
  | nil =>
    intro b c h1 h2
    cases b with
    | nil => simp [strcmp] at h1
    | cons y t =>
      cases c with
      | nil => simp [strcmp] at h2
      | cons z u => simp [strcmp]
  | cons x s ih =>
    intro b c h1 h2
    cases b with
    | nil => simp [strcmp] at h1
    | cons y t =>
      cases c with
      | nil => simp [strcmp] at h2
      | cons z u =>
        simp only [strcmp] at h1 h2 ⊢
        rcases Nat.lt_trichotomy x.toNat y.toNat with hxy | hxy | hxy
        · rcases Nat.lt_trichotomy y.toNat z.toNat with hyz | hyz | hyz
          · rw [if_pos (by omega)]
            omega
          · rw [if_pos (by omega)]
            omega
          · rw [if_neg (by omega), if_pos (by omega)] at h2
            omega
        · rw [if_neg (by omega), if_neg (by omega)] at h1
          rcases Nat.lt_trichotomy y.toNat z.toNat with hyz | hyz | hyz
          · rw [if_pos (by omega)]
            omega
          · rw [if_neg (by omega), if_neg (by omega)] at h2
            rw [if_neg (by omega), if_neg (by omega)]
            exact ih t u h1 h2
          · rw [if_neg (by omega), if_pos (by omega)] at h2
            omega
        · rw [if_neg (by omega), if_pos (by omega)] at h1
          omega

theorem lessb_true_iff (x y : Suggestion) :
    lessb x y = true ↔ (x.dist < y.dist ∨ (x.dist = y.dist ∧ strcmp x.word y.word < 0)) := by
  simp [lessb]

theorem lessb_false_iff (x y : Suggestion) :
    lessb y x = false ↔ (x.dist < y.dist ∨ (x.dist = y.dist ∧ strcmp x.word y.word ≤ 0)) := by
  rw [← Bool.not_eq_true, lessb_true_iff]
  have hsw := strcmp_swap x.word y.word
  omega

theorem lessb_asymm {x y : Suggestion} (h : lessb x y = true) : lessb y x = false := by
  rw [lessb_true_iff] at h
  rw [lessb_false_iff]
  rcases h with h | ⟨he, hs⟩
  · exact Or.inl h
  · exact Or.inr ⟨he, le_of_lt hs⟩

theorem lessb_trans {x y z : Suggestion} (h1 : lessb x y = true) (h2 : lessb y z = true) :
    lessb x z = true := by
  rw [lessb_true_iff] at h1 h2 ⊢
  rcases h1 with h1 | ⟨he1, hs1⟩
  · rcases h2 with h2 | ⟨he2, hs2⟩
    · exact Or.inl (lt_trans h1 h2)
    · exact Or.inl (he2 ▸ h1)
  · rcases h2 with h2 | ⟨he2, hs2⟩
    · exact Or.inl (he1 ▸ h2)
    · exact Or.inr ⟨he1.trans he2, strcmp_lt_trans _ _ _ hs1 hs2⟩

/-! ### Correctness of the exchange sort in `sort_suggestions` -/

theorem swapL_length (s : List Suggestion) (i j : Nat) : (swapL s i j).length = s.length := by
  simp [swapL]

theorem swapL_getD_left {s : List Suggestion} {i j : Nat} (hij : i ≠ j) (hi : i < s.length) :
    (swapL s i j).getD i dS = s.getD j dS := by
  rw [swapL, getD_set_ne _ _ _ (Ne.symm hij)]
  exact getD_set_self s i _ dS hi

theorem swapL_getD_right {s : List Suggestion} {i j : Nat} (hj : j < s.length) :
    (swapL s i j).getD j dS = s.getD i dS := by
  rw [swapL]
  exact getD_set_self _ j _ dS (by simpa using hj)

theorem swapL_getD_other {s : List Suggestion} {i j k : Nat} (hki : k ≠ i) (hkj : k ≠ j) :
    (swapL s i j).getD k dS = s.getD k dS := by
  rw [swapL, getD_set_ne _ _ _ (Ne.symm hkj), getD_set_ne _ _ _ (Ne.symm hki)]

theorem swapL_perm {s : List Suggestion} {i j : Nat} (hij : i < j) (hj : j < s.length) :
    (swapL s i j).Perm s := by
  rw [swapL]
  exact set_set_perm s dS hij hj

theorem swapL_take {s : List Suggestion} {i j : Nat} (hij : i ≤ j) :
    (swapL s i j).take i = s.take i := by
  rw [swapL, take_set_of_le _ _ hij, take_set_of_le _ _ (le_refl i)]

theorem innerLoop_inv (i : Nat) : ∀ (fuel j : Nat) (s : List Suggestion),
    i < j →
    s.length ≤ fuel + j →
    (∀ k, i < k → k < j → lessb (s.getD k dS) (s.getD i dS) = false) →
    (innerLoop i fuel j s).length = s.length ∧
    (innerLoop i fuel j s).take i = s.take i ∧
    ((innerLoop i fuel j s).drop i).Perm (s.drop i) ∧
    (∀ k, i < k → k < s.length →
      lessb ((innerLoop i fuel j s).getD k dS) ((innerLoop i fuel j s).getD i dS) = false) := by
  intro fuel
  induction fuel with
  | zero =>
    intro j s hij hfuel hmin
    refine ⟨rfl, rfl, List.Perm.refl _, ?_⟩
    intro k hik hk
    exact hmin k hik (by omega)
  | succ fuel ih =>
    intro j s hij hfuel hmin
    by_cases hj : j < s.length
    · simp only [innerLoop, if_pos hj]
      by_cases hb : lessb (s.getD j dS) (s.getD i dS) = true
      · simp only [if_pos hb]
        have hilen : i < s.length := by omega
        have hne : i ≠ j := by omega
        have tlen : (swapL s i j).length = s.length := swapL_length s i j
        have tgi : (swapL s i j).getD i dS = s.getD j dS := swapL_getD_left hne hilen
        have hmin2 : ∀ k, i < k → k < j + 1 →
            lessb ((swapL s i j).getD k dS) ((swapL s i j).getD i dS) = false := by
          intro k hik hkj
          rw [tgi]
          by_cases hkeq : k = j
          · subst hkeq
            rw [swapL_getD_right hj]
            exact lessb_asymm hb
          · have hkj2 : k < j := by omega
            rw [swapL_getD_other (by omega) hkeq]
            by_cases hc : lessb (s.getD k dS) (s.getD j dS) = true
            · have h2 := lessb_trans hc hb
              have h3 := hmin k hik hkj2
              rw [h2] at h3
              exact absurd h3 (by decide)
            · simp only [Bool.not_eq_true] at hc
              exact hc
        obtain ⟨rlen, rtake, rdrop, rmin⟩ :=
          ih (j + 1) (swapL s i j) (by omega) (by omega) hmin2
        refine ⟨rlen.trans tlen, ?_, ?_, ?_⟩
        · rw [rtake, swapL_take (le_of_lt hij)]
        · exact rdrop.trans
            (drop_perm_of_take_eq i (swapL_perm hij hj) (swapL_take (le_of_lt hij)))
        · intro k hik hk
          exact rmin k hik (by omega)
      · simp only [Bool.not_eq_true] at hb
        simp only [hb, Bool.false_eq_true, if_neg (by simp : ¬ False)]
        have hmin2 : ∀ k, i < k → k < j + 1 →
            lessb (s.getD k dS) (s.getD i dS) = false := by
          intro k hik hkj
          by_cases hkeq : k = j
          · subst hkeq; exact hb
          · exact hmin k hik (by omega)
        exact ih (j + 1) s (by omega) (by omega) hmin2
    · rw [innerLoop, if_neg hj]
      refine ⟨rfl, rfl, List.Perm.refl _, ?_⟩
      intro k hik hk
      exact hmin k hik (by omega)

theorem pairwise_of_prefix_inv (s : List Suggestion) (i : Nat)
    (hlen : s.length ≤ i + 1)
    (h1 : (s.take i).Pairwise (fun x y => lessb y x = false))
    (h2 : ∀ x ∈ s.take i, ∀ y ∈ s.drop i, lessb y x = false) :
    s.Pairwise (fun x y => lessb y x = false) := by
  have hd : (s.drop i).length ≤ 1 := by rw [List.length_drop]; omega
  have hp : (s.drop i).Pairwise (fun x y => lessb y x = false) := by
    rcases hdd : s.drop i with _ | ⟨a, _ | ⟨b, t⟩⟩
    · exact List.Pairwise.nil
    · exact List.pairwise_singleton _ a
    · rw [hdd] at hd; simp at hd
  rw [← List.take_append_drop i s, List.pairwise_append]
  exact ⟨h1, hp, h2⟩

theorem outerLoop_inv : ∀ (fuel i : Nat) (s : List Suggestion),
    s.length ≤ fuel + i + 1 →
    (s.take i).Pairwise (fun x y => lessb y x = false) →
    (∀ x ∈ s.take i, ∀ y ∈ s.drop i, lessb y x = false) →
    (outerLoop fuel i s).Perm s ∧
    (outerLoop fuel i s).Pairwise (fun x y => lessb y x = false) := by
  intro fuel
  induction fuel with
  | zero =>
    intro i s hlen h1 h2
    exact ⟨List.Perm.refl s, pairwise_of_prefix_inv s i (by omega) h1 h2⟩
  | succ fuel ih =>
    intro i s hlen h1 h2
    by_cases hi : i + 1 < s.length
    · simp only [outerLoop, if_pos hi]
      obtain ⟨tlen, ttake, tdrop, tmin⟩ :=
        innerLoop_inv i s.length (i + 1) s (by omega) (by omega)
          (fun k hik hk => absurd hik (by omega))
      set t := innerLoop i s.length (i + 1) s with ht
      have hit : i < t.length := by omega
      have tp : t.Perm s := by
        have hp : (s.take i ++ t.drop i).Perm (s.take i ++ s.drop i) :=
          List.Perm.append_left _ tdrop
        rw [List.take_append_drop] at hp
        rw [← ttake, List.take_append_drop] at hp
        exact hp
      have hgmem : t.getD i dS ∈ s.drop i := by
        have := getD_mem_drop t dS hit
        exact (tdrop.mem_iff).1 this
      have htake1 : (t.take (i + 1)).Pairwise (fun x y => lessb y x = false) := by
        rw [take_succ_getD t dS hit, List.pairwise_append]
        refine ⟨ttake ▸ h1, List.pairwise_singleton _ _, ?_⟩
        intro a ha b hb
        rw [List.mem_singleton] at hb
        subst hb
        rw [ttake] at ha
        exact h2 a ha _ hgmem
      have hcross1 : ∀ x ∈ t.take (i + 1), ∀ y ∈ t.drop (i + 1), lessb y x = false := by
        intro x hx y hy
        obtain ⟨k, hk1, hk2, hk3⟩ := mem_drop_getD dS hy
        have hkgt : i < k := by omega
        rw [take_succ_getD t dS hit, List.mem_append] at hx
        rcases hx with hx | hx
        · have hyd : y ∈ t.drop i := by
            rw [drop_eq_getD_cons t dS hit]
            exact List.mem_cons_of_mem _ hy
          rw [ttake] at hx
          exact h2 x hx y ((tdrop.mem_iff).1 hyd)
        · rw [List.mem_singleton] at hx
          subst hx
          rw [← hk3]
          exact tmin k hkgt (by omega)
      obtain ⟨operm, opw⟩ := ih (i + 1) t (by omega) htake1 hcross1
      exact ⟨operm.trans tp, opw⟩
    · simp only [outerLoop, if_neg hi]
      exact ⟨List.Perm.refl s, pairwise_of_prefix_inv s i (by omega) h1 h2⟩

theorem sort_suggestions_perm (s : List Suggestion) : (sort_suggestions s).Perm s := by
  rw [sort_suggestions]
  exact (outerLoop_inv s.length 0 s (by omega) (by simp) (by simp)).1

theorem sort_suggestions_pairwise (s : List Suggestion) :
    (sort_suggestions s).Pairwise (fun x y => lessb y x = false) := by
  rw [sort_suggestions]
  exact (outerLoop_inv s.length 0 s (by omega) (by simp) (by simp)).2

/-! ### The candidate-collecting scan -/

theorem collect_mem {distFn : List Char → List Char → Int} {lw : List Char}
    {tol mlen ltol : Int} : ∀ {dict : List (List Char)} {cnt : Nat} {s : Suggestion},
    s ∈ collect distFn lw tol mlen ltol dict cnt →
    ∃ w ∈ dict, s.word = w.take (MAX_WORD_LEN - 1) ∧ s.dist = distFn lw w ∧
      0 ≤ s.dist ∧ s.dist ≤ tol ∧
      mlen ≤ (w.length : Int) ∧ |(w.length : Int) - mlen| ≤ ltol := by
  intro dict
  induction dict with
  | nil =>
    intro cnt s hs
    simp [collect] at hs
  | cons w rest ih =>
    intro cnt s hs
    rw [collect] at hs
    by_cases h1 : (w.length : Int) < mlen
    · rw [if_pos h1] at hs
      obtain ⟨v, hv, hrest⟩ := ih hs
      exact ⟨v, List.mem_cons_of_mem _ hv, hrest⟩
    · rw [if_neg h1] at hs
      by_cases h2 : ltol < |(w.length : Int) - mlen|
      · rw [if_pos h2] at hs
        obtain ⟨v, hv, hrest⟩ := ih hs
        exact ⟨v, List.mem_cons_of_mem _ hv, hrest⟩
      · rw [if_neg h2] at hs
        by_cases h3 : 0 ≤ distFn lw w ∧ distFn lw w ≤ tol
        · rw [if_pos h3] at hs
          by_cases h4 : cnt < MAX_TEMP_SUGGESTIONS
          · rw [if_pos h4] at hs
            rcases List.mem_cons.1 hs with hs | hs
            · subst hs
              exact ⟨w, List.mem_cons_self _ _, rfl, rfl, h3.1, h3.2, by omega, by omega⟩
            · obtain ⟨v, hv, hrest⟩ := ih hs
              exact ⟨v, List.mem_cons_of_mem _ hv, hrest⟩
          · rw [if_neg h4] at hs
            simp at hs
        · rw [if_neg h3] at hs
          obtain ⟨v, hv, hrest⟩ := ih hs
          exact ⟨v, List.mem_cons_of_mem _ hv, hrest⟩

theorem qualifies_true_iff (distFn : List Char → List Char → Int) (lw : List Char)
    (tol mlen ltol : Int) (w : List Char) :
    qualifies distFn lw tol mlen ltol w = true ↔
      (¬ (w.length : Int) < mlen ∧ ¬ ltol < |(w.length : Int) - mlen| ∧
        (0 ≤ distFn lw w ∧ distFn lw w ≤ tol)) := by
  simp [qualifies, and_assoc]

theorem collect_eq (distFn : List Char → List Char → Int) (lw : List Char)
    (tol mlen ltol : Int) : ∀ (dict : List (List Char)) (cnt : Nat),
    collect distFn lw tol mlen ltol dict cnt =
      ((dict.filter (qualifies distFn lw tol mlen ltol)).take
          (MAX_TEMP_SUGGESTIONS - cnt)).map
        (fun w => ⟨w.take (MAX_WORD_LEN - 1), distFn lw w⟩) := by
  intro dict
  induction dict with
  | nil =>
    intro cnt
    simp [collect]
  | cons w rest ih =>
    intro cnt
    rw [collect, List.filter_cons]
    by_cases h1 : (w.length : Int) < mlen
    · have hq : ¬ qualifies distFn lw tol mlen ltol w = true := by
        rw [qualifies_true_iff]; tauto
      rw [if_pos h1, if_neg hq, ih]
    · rw [if_neg h1]
      by_cases h2 : ltol < |(w.length : Int) - mlen|
      · have hq : ¬ qualifies distFn lw tol mlen ltol w = true := by
          rw [qualifies_true_iff]; tauto
        rw [if_pos h2, if_neg hq, ih]
      · rw [if_neg h2]
        by_cases h3 : 0 ≤ distFn lw w ∧ distFn lw w ≤ tol
        · have hq : qualifies distFn lw tol mlen ltol w = true := by
            rw [qualifies_true_iff]; tauto
          rw [if_pos h3, if_pos hq]
          by_cases h4 : cnt < MAX_TEMP_SUGGESTIONS
          · rw [if_pos h4, ih]
            have hcap : MAX_TEMP_SUGGESTIONS - cnt = (MAX_TEMP_SUGGESTIONS - (cnt + 1)) + 1 := by
              omega
            rw [hcap, List.take_succ_cons, List.map_cons]
          · rw [if_neg h4]
            have hcap : MAX_TEMP_SUGGESTIONS - cnt = 0 := by omega
            rw [hcap, List.take_zero, List.map_nil]
        · have hq : ¬ qualifies distFn lw tol mlen ltol w = true := by
            rw [qualifies_true_iff]; tauto
          rw [if_neg h3, if_neg hq, ih]

theorem collect_skip (distFn : List Char → List Char → Int) (lw : List Char)
    (tol mlen ltol : Int) (w : List Char) (rest : List (List Char)) (cnt : Nat)
    (h1 : ¬ (w.length : Int) < mlen) (h2 : ¬ ltol < |(w.length : Int) - mlen|)
    (hneg : distFn lw w < 0) :
    collect distFn lw tol mlen ltol (w :: rest) cnt =
      collect distFn lw tol mlen ltol rest cnt := by
  rw [collect, if_neg h1, if_neg h2, if_neg (by omega)]

/-! ### The DP table of `damerau_levenshtein_distance` matches the OSA recurrence -/

theorem getD_append_left {α : Type} (l1 l2 : List α) (d : α) {n : Nat} (h : n < l1.length) :
    (l1 ++ l2).getD n d = l1.getD n d := by
  rw [List.getD_eq_getElem?_getD, List.getElem?_append_left h, ← List.getD_eq_getElem?_getD]

theorem getD_concat_self {α : Type} (l : List α) (x : α) (d : α) :
    (l ++ [x]).getD l.length d = x := by
  rw [List.getD_eq_getElem?_getD, List.getElem?_concat_length]
  rfl

theorem getD_range {n j : Nat} (h : j < n) : (List.range n).getD j 0 = j := by
  rw [List.getD_eq_getElem?_getD, List.getElem?_range h]
  rfl

theorem mkRowAux_length (a b : List Char) (rows : List (List Nat)) (i : Nat) :
    ∀ j, (mkRowAux a b rows i j).length = j + 1 := by
  intro j
  induction j with
  | zero => rfl
  | succ j ih =>
    rw [mkRowAux]
    simp [ih]

theorem mkRowAux_getD_of_le (a b : List Char) (rows : List (List Nat)) (i : Nat) :
    ∀ {j k : Nat}, k ≤ j →
      (mkRowAux a b rows i j).getD k 0 = (mkRowAux a b rows i k).getD k 0 := by
  intro j
  induction j with
  | zero =>
    intro k hk
    have hk0 : k = 0 := by omega
    subst hk0
    rfl
  | succ j ih =>
    intro k hk
    by_cases hkj : k ≤ j
    · rw [mkRowAux, getD_append_left _ _ _ (by rw [mkRowAux_length]; omega), ih hkj]
    · have hk1 : k = j + 1 := by omega
      subst hk1
      rfl

theorem mkRowAux_getD_succ (a b : List Char) (rows : List (List Nat)) (i j : Nat) :
    (mkRowAux a b rows i (j + 1)).getD (j + 1) 0 =
      dlCell a b rows (mkRowAux a b rows i j) i (j + 1) := by
  have hl := mkRowAux_length a b rows i j
  rw [mkRowAux]
  calc (mkRowAux a b rows i j ++ [dlCell a b rows (mkRowAux a b rows i j) i (j + 1)]).getD
        (j + 1) 0
      = (mkRowAux a b rows i j ++
          [dlCell a b rows (mkRowAux a b rows i j) i (j + 1)]).getD
          (mkRowAux a b rows i j).length 0 := by rw [hl]
    _ = dlCell a b rows (mkRowAux a b rows i j) i (j + 1) := getD_concat_self _ _ _

theorem dlRows_length (a b : List Char) : ∀ n, (dlRows a b n).length = n + 1 := by
  intro n
  induction n with
  | zero => rfl
  | succ n ih =>
    rw [dlRows]
    simp [ih]

theorem dlRows_getD_of_le (a b : List Char) :
    ∀ {n m i : Nat}, m ≤ n → i ≤ m →
      (dlRows a b n).getD i [] = (dlRows a b m).getD i [] := by
  intro n
  induction n with
  | zero =>
    intro m i hm hi
    have : m = 0 := by omega
    subst this
    rfl
  | succ n ih =>
    intro m i hm hi
    by_cases hmn : m ≤ n
    · rw [dlRows, getD_append_left _ _ _ (by rw [dlRows_length]; omega), ih hmn hi]
    · have : m = n + 1 := by omega
      subst this
      rfl

theorem dlRows_getD_succ (a b : List Char) (n : Nat) :
    (dlRows a b (n + 1)).getD (n + 1) [] =
      mkRowAux a b (dlRows a b n) (n + 1) b.length := by
  have hl := dlRows_length a b n
  rw [dlRows]
  calc (dlRows a b n ++ [mkRowAux a b (dlRows a b n) (n + 1) b.length]).getD (n + 1) []
      = (dlRows a b n ++ [mkRowAux a b (dlRows a b n) (n + 1) b.length]).getD
          (dlRows a b n).length [] := by rw [hl]
    _ = mkRowAux a b (dlRows a b n) (n + 1) b.length := getD_concat_self _ _ _

theorem osaSpec_zero_left (a b : List Char) (j : Nat) : osaSpec a b 0 j = j := by
  rw [osaSpec]

theorem osaSpec_zero_right (a b : List Char) (i : Nat) : osaSpec a b i 0 = i := by
  cases i with
  | zero => rw [osaSpec]
  | succ n => rw [osaSpec]

theorem mkRow_osa (a b : List Char) (n : Nat)
    (hrows : ∀ i ≤ n, ∀ j ≤ b.length, ((dlRows a b n).getD i []).getD j 0 = osaSpec a b i j) :
    ∀ j ≤ b.length,
      (mkRowAux a b (dlRows a b n) (n + 1) j).getD j 0 = osaSpec a b (n + 1) j := by
  intro j
  induction j with
  | zero =>
    intro
    rw [osaSpec_zero_right]
    rfl
  | succ j ihj =>
    intro hj
    rw [mkRowAux_getD_succ, dlCell, osaSpec]
    simp only [Nat.add_sub_cancel]
    rw [show n + 1 - 2 = n - 1 from by omega, show j + 1 - 2 = j - 1 from by omega]
    rw [hrows n (le_refl n) (j + 1) hj, ihj (by omega), hrows n (le_refl n) j (by omega)]
    by_cases hc : 0 < n ∧ 0 < j ∧ a.getD n padC = b.getD (j - 1) padC ∧
        a.getD (n - 1) padC = b.getD j padC
    · rw [if_pos (show 1 < n + 1 ∧ 1 < j + 1 ∧ a.getD n padC = b.getD (j - 1) padC ∧
          a.getD (n - 1) padC = b.getD j padC from ⟨by omega, by omega, hc.2.2⟩),
        if_pos hc, hrows (n - 1) (by omega) (j - 1) (by omega)]
    · rw [if_neg (show ¬ (1 < n + 1 ∧ 1 < j + 1 ∧ a.getD n padC = b.getD (j - 1) padC ∧
          a.getD (n - 1) padC = b.getD j padC) from
          fun hh => hc ⟨by omega, by omega, hh.2.2⟩), if_neg hc]

theorem dlRows_osa (a b : List Char) :
    ∀ n, ∀ i ≤ n, ∀ j ≤ b.length, ((dlRows a b n).getD i []).getD j 0 = osaSpec a b i j := by
  intro n
  induction n with
  | zero =>
    intro i hi j hj
    have hi0 : i = 0 := by omega
    subst hi0
    rw [show (dlRows a b 0).getD 0 [] = List.range (b.length + 1) from rfl,
      getD_range (by omega), osaSpec_zero_left]
  | succ n ih =>
    intro i hi j hj
    by_cases hin : i ≤ n
    · rw [dlRows_getD_of_le a b (Nat.le_succ n) hin]
      exact ih i hin j hj
    · have hi1 : i = n + 1 := by omega
      subst hi1
      rw [dlRows_getD_succ, mkRowAux_getD_of_le a b _ _ hj]
      exact mkRow_osa a b n ih j hj

theorem dl_eq_osa (a b : List Char) :
    damerau_levenshtein_distance a b = osaSpec a b a.length b.length := by
  rw [damerau_levenshtein_distance]
  by_cases ha : a.length = 0
  · rw [if_pos ha, ha, osaSpec_zero_left]
  · rw [if_neg ha]
    by_cases hb : b.length = 0
    · rw [if_pos hb, hb, osaSpec_zero_right]
    · rw [if_neg hb]
      exact dlRows_osa a b a.length a.length (le_refl _) b.length (le_refl _)

theorem osaSpec_diag (a : List Char) : ∀ i, osaSpec a a i i = 0 := by
  intro i
  induction i with
  | zero => rw [osaSpec]
  | succ i ih =>
    rw [osaSpec, ih]
    simp only [eq_self_iff_true, if_true, Nat.add_zero, Nat.min_zero, Nat.zero_min, ite_self]

theorem osaSpec_symm (a b : List Char) :
    ∀ (n i j : Nat), i + j ≤ n → osaSpec a b i j = osaSpec b a j i := by
  intro n
  induction n with
  | zero =>
    intro i j h
    have hi : i = 0 := by omega
    have hj : j = 0 := by omega
    subst hi
    subst hj
    rw [osaSpec_zero_left, osaSpec_zero_left]
  | succ n ih =>
    intro i j h
    cases i with
    | zero => rw [osaSpec_zero_left, osaSpec_zero_right]
    | succ i =>
      cases j with
      | zero => rw [osaSpec_zero_right, osaSpec_zero_left]
      | succ j =>
        rw [osaSpec]
        conv_rhs => rw [osaSpec]
        rw [ih i (j + 1) (by omega), ih (i + 1) j (by omega), ih i j (by omega),
          ih (i - 1) (j - 1) (by omega)]
        by_cases hab : a.getD i padC = b.getD j padC
        · rw [if_pos hab, if_pos hab.symm]
          by_cases hc : 0 < i ∧ 0 < j ∧ a.getD i padC = b.getD (j - 1) padC ∧
              a.getD (i - 1) padC = b.getD j padC
          · rw [if_pos hc, if_pos (show 0 < j ∧ 0 < i ∧ b.getD j padC = a.getD (i - 1) padC ∧
                b.getD (j - 1) padC = a.getD i padC from
                ⟨hc.2.1, hc.1, hc.2.2.2.symm, hc.2.2.1.symm⟩), min_left_comm]
          · rw [if_neg hc, if_neg (show ¬ (0 < j ∧ 0 < i ∧ b.getD j padC = a.getD (i - 1) padC ∧
                b.getD (j - 1) padC = a.getD i padC) from
                fun hh => hc ⟨hh.2.1, hh.1, hh.2.2.2.symm, hh.2.2.1.symm⟩), min_left_comm]
        · rw [if_neg hab,
            if_neg (show ¬ b.getD j padC = a.getD i padC from fun hh => hab hh.symm)]
          by_cases hc : 0 < i ∧ 0 < j ∧ a.getD i padC = b.getD (j - 1) padC ∧
              a.getD (i - 1) padC = b.getD j padC
          · rw [if_pos hc, if_pos (show 0 < j ∧ 0 < i ∧ b.getD j padC = a.getD (i - 1) padC ∧
                b.getD (j - 1) padC = a.getD i padC from
                ⟨hc.2.1, hc.1, hc.2.2.2.symm, hc.2.2.1.symm⟩), min_left_comm]
          · rw [if_neg hc, if_neg (show ¬ (0 < j ∧ 0 < i ∧ b.getD j padC = a.getD (i - 1) padC ∧
                b.getD (j - 1) padC = a.getD i padC) from
                fun hh => hc ⟨hh.2.1, hh.1, hh.2.2.2.symm, hh.2.2.1.symm⟩), min_left_comm]

/-! ### Membership scan -/

theorem scanWords_true_iff (lw : List Char) : ∀ (d : List (List Char)),
    scanWords lw d = true ↔ lw ∈ d := by
  intro d
  induction d with
  | nil => simp [scanWords]
  | cons w rest ih =>
    rw [scanWords]
    by_cases h : strcmp lw w = 0
    · rw [if_pos h]
      have he := (strcmp_eq_zero_iff lw w).1 h
      subst he
      simp
    · rw [if_neg h, ih, List.mem_cons]
      have hne : lw ≠ w := fun he => h ((strcmp_eq_zero_iff lw w).2 he)
      tauto

/-! ### Claim theorems -/

/-- C1: on the success path, `damerau_levenshtein_distance` computes
exactly the restricted Damerau-Levenshtein (optimal string alignment)
distance given by the DP recurrence `dp[i][0] = i`, `dp[0][j] = j`,
`dp[i][j] = min(dp[i-1][j]+1, dp[i][j-1]+1, dp[i-1][j-1]+cost)` with the
transposition option `dp[i-2][j-2]+1` when `i > 1`, `j > 1`,
`a[i-1] = b[j-2]` and `a[i-2] = b[j-1]`; in particular
`distance("", s) = len(s)`, `distance(s, "") = len(s)` and
`distance(s, s) = 0` for every string `s`. -/
theorem c1_distance_matches_recurrence (a b s : List Char) :
    damerau_levenshtein_distance a b = osaSpec a b a.length b.length ∧
    damerau_levenshtein_distance [] s = s.length ∧
    damerau_levenshtein_distance s [] = s.length ∧
    damerau_levenshtein_distance s s = 0 := by
  refine ⟨dl_eq_osa a b, rfl, ?_, ?_⟩
  · rw [damerau_levenshtein_distance]
    by_cases hs : s.length = 0
    · rw [if_pos hs]
      simpa using hs.symm
    · rw [if_neg hs]
      simp
  · rw [dl_eq_osa]
    exact osaSpec_diag s s.length

/-- C9: on the success path, `damerau_levenshtein_distance` is
symmetric in its two arguments. -/
theorem c9_distance_symmetric (a b : List Char) :
    damerau_levenshtein_distance a b = damerau_levenshtein_distance b a := by
  rw [dl_eq_osa, dl_eq_osa]
  exact osaSpec_symm a b (a.length + b.length) a.length b.length (le_refl _)

/-- C2: against any loaded store (whose words all respect the
`MAX_WORD_LEN` bound, as `load_dictionary` guarantees), every suggestion
returned by `get_suggestions` satisfies `d ≤ tolerance`,
`len(w) ≥ misspelled_word_len` and
`|len(w) - misspelled_word_len| ≤ length_tolerance`. -/
theorem c2_suggestion_bounds (distFn : List Char → List Char → Int)
    (dict : List (List Char)) (word : List Char) (tol mlen ltol : Int) (s : Suggestion)
    (hdict : ∀ w ∈ dict, w.length < MAX_WORD_LEN)
    (hs : s ∈ get_suggestions distFn (some dict) word tol mlen ltol) :
    s.dist ≤ tol ∧ mlen ≤ (s.word.length : Int) ∧ |(s.word.length : Int) - mlen| ≤ ltol := by
  rw [get_suggestions] at hs
  by_cases hd : dict.length = 0
  · rw [if_pos hd] at hs
    simp at hs
  · rw [if_neg hd] at hs
    have hs2 := (sort_suggestions_perm _).mem_iff.1 hs
    obtain ⟨w, hw, hsw, hsd, h0, htol, hmlen, hltol⟩ := collect_mem hs2
    have hwlen : w.take (MAX_WORD_LEN - 1) = w :=
      List.take_of_length_le (by have := hdict w hw; omega)
    refine ⟨htol, ?_, ?_⟩
    · rw [hsw, hwlen]
      exact hmlen
    · rw [hsw, hwlen]
      exact hltol

theorem c2_suggestion_bounds_witness :
    (⟨['c', 'a', 't'], 1⟩ : Suggestion).dist ≤ 1 ∧
    (3 : Int) ≤ (((⟨['c', 'a', 't'], 1⟩ : Suggestion)).word.length : Int) ∧
    |(((⟨['c', 'a', 't'], 1⟩ : Suggestion)).word.length : Int) - 3| ≤ 0 :=
  c2_suggestion_bounds dlDistFn [['c', 'a', 't']] ['c', 's', 't'] 1 3 0
    ⟨['c', 'a', 't'], 1⟩ (by decide) (by decide)

/-- C3: the sequence returned by `get_suggestions` is ordered by
ascending distance with ties broken by ascending lexicographic
(`strcmp`) order of the word: for any two returned suggestions at
positions `i < j`, either `d_i < d_j`, or `d_i = d_j` and
`strcmp(w_i, w_j) ≤ 0`. -/
theorem c3_output_sorted (distFn : List Char → List Char → Int)
    (store : Option (List (List Char))) (word : List Char) (tol mlen ltol : Int) :
    (get_suggestions distFn store word tol mlen ltol).Pairwise
      (fun x y => x.dist < y.dist ∨ (x.dist = y.dist ∧ strcmp x.word y.word ≤ 0)) := by
  cases store with
  | none => exact List.Pairwise.nil
  | some dict =>
    rw [get_suggestions]
    by_cases hd : dict.length = 0
    · rw [if_pos hd]
      exact List.Pairwise.nil
    · rw [if_neg hd]
      exact (sort_suggestions_pairwise _).imp (fun h => (lessb_false_iff _ _).1 h)

/-- C4: `get_suggestions` returns at most `MAX_TEMP_SUGGESTIONS`
suggestions, and the returned collection is exactly (a reordering of)
the first `MAX_TEMP_SUGGESTIONS` qualifying candidates in store order —
every qualifying candidate past the cap is dropped. -/
theorem c4_cap (distFn : List Char → List Char → Int) (dict : List (List Char))
    (word : List Char) (tol mlen ltol : Int) :
    (get_suggestions distFn (some dict) word tol mlen ltol).length ≤ MAX_TEMP_SUGGESTIONS ∧
    (get_suggestions distFn (some dict) word tol mlen ltol).Perm
      (((dict.filter (qualifies distFn ((word.take (MAX_WORD_LEN - 1)).map tolowerC)
            tol mlen ltol)).take MAX_TEMP_SUGGESTIONS).map
        (fun w => ⟨w.take (MAX_WORD_LEN - 1),
          distFn ((word.take (MAX_WORD_LEN - 1)).map tolowerC) w⟩)) := by
  rw [get_suggestions]
  by_cases hd : dict.length = 0
  · rw [if_pos hd]
    have hdn : dict = [] := List.length_eq_zero.1 hd
    subst hdn
    exact ⟨Nat.zero_le _, by simp⟩
  · rw [if_neg hd]
    constructor
    · rw [collect_eq, Nat.sub_zero, (sort_suggestions_perm _).length_eq,
        List.length_map, List.length_take]
      exact min_le_left _ _
    · rw [collect_eq, Nat.sub_zero]
      exact sort_suggestions_perm _

/-- C5 counterexample: the claim says `is_word_correct` is true exactly
when the trimmed, lowercase-folded query equals a stored word; but the
code applies no trimming to queries, so the query `"cat\n"` fails
against a store containing `"cat"` even though its trimmed, folded form
is `"cat"`. -/
theorem c5_counterexample :
    is_word_correct (some [['c', 'a', 't']]) ['c', 'a', 't', '\n'] = false ∧
    normalizeQuerySpec ['c', 'a', 't', '\n'] = ['c', 'a', 't'] ∧
    (['c', 'a', 't'] : List Char) ∈ [['c', 'a', 't']] := by
  refine ⟨?_, ?_, ?_⟩ <;> decide

/-- C5 amended: `is_word_correct` returns true iff the query truncated
to `MAX_WORD_LEN - 1` characters and ASCII-lowercase-folded — with no
trimming of newline or carriage-return characters — exactly equals some
stored word. -/
theorem c5_amended_membership (dict : List (List Char)) (word : List Char) :
    is_word_correct (some dict) word = true ↔
      ((word.take (MAX_WORD_LEN - 1)).map tolowerC) ∈ dict := by
  rw [is_word_correct]
  by_cases hd : dict.length = 0
  · rw [if_pos hd]
    have hdn : dict = [] := List.length_eq_zero.1 hd
    subst hdn
    simp
  · rw [if_neg hd]
    exact scanWords_true_iff _ dict

/-- C6 counterexample: the claim says every stored word has length at
least 1; but `load_dictionary` only checks the upper bound, so an empty
input line (a bare newline) is stored as the empty word. -/
theorem c6_counterexample :
    (load_dictionary true [['\n']]).1 = some [([] : List Char)] ∧
    (([] : List Char)).length < 1 := by
  refine ⟨?_, ?_⟩ <;> decide

/-- C6 amended: after a successful `load_dictionary`, every stored word
has length strictly below `MAX_WORD_LEN` and is exactly the normalized
form of one of the input lines (so over-long lines are discarded whole,
never stored truncated); but the empty word can be stored, so there is
no lower length bound. -/
theorem c6_amended_store_bounds (lines : List (List Char)) (w : List Char)
    (hw : w ∈ (load_dictionary true lines).1.getD []) :
    w.length < MAX_WORD_LEN ∧ ∃ l ∈ lines, w = normalizeLine l := by
  simp only [load_dictionary, if_pos trivial, Option.getD_some] at hw
  rw [processLines, List.mem_filterMap] at hw
  obtain ⟨l, hl, he⟩ := hw
  by_cases hlen : (normalizeLine l).length < MAX_WORD_LEN
  · rw [if_pos hlen] at he
    have ht : (normalizeLine l).take (MAX_WORD_LEN - 1) = normalizeLine l :=
      List.take_of_length_le (by omega)
    rw [ht] at he
    injection he with he
    subst he
    exact ⟨hlen, l, hl, rfl⟩
  · rw [if_neg hlen] at he
    exact absurd he (by simp)

theorem c6_amended_store_bounds_witness :
    (['h', 'i'] : List Char).length < MAX_WORD_LEN ∧
    ∃ l ∈ ([['h', 'i']] : List (List Char)), ['h', 'i'] = normalizeLine l :=
  c6_amended_store_bounds [['h', 'i']] ['h', 'i'] (by decide)

/-- C7: a candidate whose distance computation returns the negative
allocation-failure sentinel is skipped (the scan continues with the
remaining candidates) and a negative value never appears as the
distance of a returned suggestion. -/
theorem c7_negative_sentinel_skipped (distFn : List Char → List Char → Int)
    (store : Option (List (List Char))) (word : List Char) (tol mlen ltol : Int) :
    (∀ s ∈ get_suggestions distFn store word tol mlen ltol, 0 ≤ s.dist) ∧
    (∀ (lw w : List Char) (rest : List (List Char)) (cnt : Nat),
      ¬ (w.length : Int) < mlen → ¬ ltol < |(w.length : Int) - mlen| →
      distFn lw w < 0 →
      collect distFn lw tol mlen ltol (w :: rest) cnt =
        collect distFn lw tol mlen ltol rest cnt) := by
  constructor
  · intro s hs
    cases store with
    | none => simp [get_suggestions] at hs
    | some dict =>
      rw [get_suggestions] at hs
      by_cases hd : dict.length = 0
      · rw [if_pos hd] at hs
        simp at hs
      · rw [if_neg hd] at hs
        have hs2 := (sort_suggestions_perm _).mem_iff.1 hs
        obtain ⟨w, hw, hsw, hsd, h0, _⟩ := collect_mem hs2
        exact h0
  · intro lw w rest cnt h1 h2 hneg
    exact collect_skip distFn lw tol mlen ltol w rest cnt h1 h2 hneg

theorem c7_negative_sentinel_skipped_witness :
    (0 : Int) ≤ ((⟨['b'], 1⟩ : Suggestion)).dist ∧
    collect (fun _ _ => (-1 : Int)) [] 5 0 9 [['a']] 0 =
      collect (fun _ _ => (-1 : Int)) [] 5 0 9 [] 0 :=
  ⟨(c7_negative_sentinel_skipped dlDistFn (some [['b']]) ['a'] 2 1 1).1
      ⟨['b'], 1⟩ (by decide),
    (c7_negative_sentinel_skipped (fun _ _ => (-1 : Int)) none [] 5 0 9).2
      [] ['a'] [] 0 (by decide) (by decide) (by decide)⟩

/-- C8: with no dictionary loaded (`none`) or an empty store, every
`is_word_correct` query returns false and every `get_suggestions` query
returns the empty result; and a failed `load_dictionary` leaves the
store unloaded (and reports failure), so those semantics persist until
a successful reload. -/
theorem c8_empty_store_behavior (distFn : List Char → List Char → Int)
    (word : List Char) (tol mlen ltol : Int) (lines : List (List Char)) :
    is_word_correct none word = false ∧
    is_word_correct (some []) word = false ∧
    get_suggestions distFn none word tol mlen ltol = [] ∧
    get_suggestions distFn (some []) word tol mlen ltol = [] ∧
    load_dictionary false lines = (none, false) :=
  ⟨rfl, rfl, rfl, rfl, rfl⟩

/-- C10: both length filters in `get_suggestions` compare against the
caller-supplied `misspelled_word_len` parameter (never the actual
length of the query), while the distance is computed from the word
argument itself; so when the parameter disagrees with the query's
actual length, returned words satisfy `len(w) ≥ misspelled_word_len`
but can be shorter than the actual query string, as the concrete run
with query `"abcd"` and `misspelled_word_len = 2` shows. -/
theorem c10_length_filter_uses_parameter (distFn : List Char → List Char → Int)
    (dict : List (List Char)) (word : List Char) (tol mlen ltol : Int) :
    (∀ s, (∀ w ∈ dict, w.length < MAX_WORD_LEN) →
      s ∈ get_suggestions distFn (some dict) word tol mlen ltol →
      mlen ≤ (s.word.length : Int) ∧ |(s.word.length : Int) - mlen| ≤ ltol ∧
      ∃ w ∈ dict, s.word = w ∧
        s.dist = distFn ((word.take (MAX_WORD_LEN - 1)).map tolowerC) w) ∧
    (get_suggestions dlDistFn (some [['a', 'b']]) ['a', 'b', 'c', 'd'] 3 2 5 =
        [⟨['a', 'b'], 2⟩] ∧
      (['a', 'b'] : List Char).length < (['a', 'b', 'c', 'd'] : List Char).length) := by
  constructor
  · intro s hdict hs
    rw [get_suggestions] at hs
    by_cases hd : dict.length = 0
    · rw [if_pos hd] at hs
      simp at hs
    · rw [if_neg hd] at hs
      have hs2 := (sort_suggestions_perm _).mem_iff.1 hs
      obtain ⟨w, hw, hsw, hsd, h0, htol, hmlen, hltol⟩ := collect_mem hs2
      have hwlen : w.take (MAX_WORD_LEN - 1) = w :=
        List.take_of_length_le (by have := hdict w hw; omega)
      rw [hsw, hwlen]
      exact ⟨hmlen, hltol, w, hw, rfl, hsd⟩
  · exact ⟨by decide, by decide⟩

theorem c10_length_filter_uses_parameter_witness :
    (2 : Int) ≤ (((⟨['a', 'b'], 2⟩ : Suggestion)).word.length : Int) ∧
    |(((⟨['a', 'b'], 2⟩ : Suggestion)).word.length : Int) - 2| ≤ 5 ∧
    ∃ w ∈ ([['a', 'b']] : List (List Char)), (⟨['a', 'b'], 2⟩ : Suggestion).word = w ∧
      (⟨['a', 'b'], 2⟩ : Suggestion).dist =
        dlDistFn (((['a', 'b', 'c', 'd'] : List Char).take (MAX_WORD_LEN - 1)).map tolowerC) w :=
  (c10_length_filter_uses_parameter dlDistFn [['a', 'b']] ['a', 'b', 'c', 'd'] 3 2 5).1
    ⟨['a', 'b'], 2⟩ (by decide) (by decide)

end SpellCheck
